import Mathlib

/-
Verification development for the resampling/convergence engine of libSBSR
(src/python/sbsr/compute.py).  The numeric kernels are embedded over ℝ
(lists standing for 1-D numpy arrays); the IEEE special values produced by
the few divisions that can hit a zero denominator (numpy float64 division
emits inf/nan rather than raising) are modelled explicitly by the type RE
below.  Parallel dispatch is modelled by explicit streams: the convergence
loops are parameterised by the per-batch error samples the worker pool
returns, and the workers themselves by the sequence of index permutations
that np.random.shuffle realises.
-/

noncomputable instance (priority := low) decAllProps (p : Prop) : Decidable p :=
  Classical.propDecidable p

/-- np.average of a 1-D array: sum divided by length. -/
noncomputable def np_average (l : List ℝ) : ℝ := l.sum / l.length

/-- np.var with the default ddof=0: mean of squared deviations. -/
noncomputable def np_var (l : List ℝ) : ℝ :=
  ((l.map fun x => (x - np_average l) ^ 2).sum) / l.length

/-- np.std: square root of the population variance. -/
noncomputable def np_std (l : List ℝ) : ℝ := Real.sqrt (np_var l)

/-- np.max of an array (numpy raises on an empty array; the 0 default of the
empty case is never exercised by the code, which always passes a grid of
num_steps+1 ≥ 1 points). -/
noncomputable def np_max : List ℝ → ℝ
  | [] => 0
  | x :: xs => xs.foldl max x

/-- Python max over a nonempty list (raises on []; default never exercised). -/
noncomputable def py_max : List ℝ → ℝ
  | [] => 0
  | x :: xs => xs.foldl max x

/-- _ecf_eval_pts: np.arange(0.0, (num_steps+1)*incr, incr).  For the positive
step sizes the code uses this is exactly the first num_steps+1 multiples of
incr. -/
noncomputable def _ecf_eval_pts (num_steps : ℕ) (incr : ℝ) : List ℝ :=
  (List.range (num_steps + 1)).map fun i => (i : ℝ) * incr

/-- ecf: the empirical characteristic function of var_vals at each transform
variable value; component 0 is the average of cos(t*v), component 1 the
average of sin(t*v), over the sample values v. -/
noncomputable def ecf (var_vals : List ℝ) (func_evals : List ℝ) : List (ℝ × ℝ) :=
  func_evals.map fun t =>
    (np_average (var_vals.map fun v => Real.cos (t * v)),
     np_average (var_vals.map fun v => Real.sin (t * v)))

/-- ecf_compare: worst-case pointwise Euclidean distance between two ECF
curves evaluated on the same grid. -/
noncomputable def ecf_compare (e1 e2 : List (ℝ × ℝ)) : ℝ :=
  np_max ((List.zip e1 e2).map fun p =>
    Real.sqrt ((p.1.1 - p.2.1) ^ 2 + (p.1.2 - p.2.2) ^ 2))

/-- _ecf_err: zero-spread fallback (incr 1/num_steps, err 0); otherwise the
frequency increment is 2*num_var_pers*pi/std/num_steps, the sample is split
at n = len/2 (integer division) into results[:n] and results[n:], and the
error is ecf_compare of the two halves' ECFs over the common grid. -/
noncomputable def _ecf_err (results : List ℝ) (num_steps num_var_pers : ℕ) : ℝ × ℝ :=
  if np_std results = 0 then (1 / (num_steps : ℝ), 0)
  else
    let incr_max : ℝ := 2 * (num_var_pers : ℝ) * Real.pi / np_std results / (num_steps : ℝ)
    let eval_pts := _ecf_eval_pts num_steps incr_max
    let n := results.length / 2
    (incr_max, ecf_compare (ecf (results.take n) eval_pts) (ecf (results.drop n) eval_pts))

/-- An IEEE-754 float64 value class: nan, +inf, -inf, or a finite value
(carried exactly as a real; the claims settled here only follow code paths
whose finite arithmetic is exact in float64). -/
inductive RE where
  | nan : RE
  | pinf : RE
  | minf : RE
  | fin : ℝ → RE

/-- float64 division of finite x by finite y (numpy semantics: 0/0 = nan,
x/0 = ±inf for x ≠ 0, never an exception). -/
noncomputable def fdiv (x y : ℝ) : RE :=
  if y = 0 then (if x = 0 then RE.nan else if 0 < x then RE.pinf else RE.minf)
  else RE.fin (x / y)

/-- float64 division of finite x by a float value a (finite/±inf = 0). -/
noncomputable def fdivRE (x : ℝ) : RE → RE
  | RE.nan => RE.nan
  | RE.pinf => RE.fin 0
  | RE.minf => RE.fin 0
  | RE.fin y => fdiv x y

/-- float64 division of a float value a by finite c (±inf/c keeps the line at
infinity; only exercised with c > 0). -/
noncomputable def fdivByR : RE → ℝ → RE
  | RE.nan, _ => RE.nan
  | RE.pinf, c => if c < 0 then RE.minf else RE.pinf
  | RE.minf, c => if c < 0 then RE.pinf else RE.minf
  | RE.fin x, c => fdiv x c

/-- float64 multiplication by a finite scalar c (0 * ±inf = nan). -/
noncomputable def fmulR (c : ℝ) : RE → RE
  | RE.nan => RE.nan
  | RE.pinf => if 0 < c then RE.pinf else if c < 0 then RE.minf else RE.nan
  | RE.minf => if 0 < c then RE.minf else if c < 0 then RE.pinf else RE.nan
  | RE.fin x => RE.fin (c * x)

/-- float64 addition of the finite constant 1. -/
noncomputable def faddOne : RE → RE
  | RE.nan => RE.nan
  | RE.pinf => RE.pinf
  | RE.minf => RE.minf
  | RE.fin x => RE.fin (x + 1)

/-- np.floor on a float64 value. -/
noncomputable def ffloor : RE → RE
  | RE.nan => RE.nan
  | RE.pinf => RE.pinf
  | RE.minf => RE.minf
  | RE.fin x => RE.fin (Int.floor x : ℤ)

/-- The IEEE < comparison on float values: any comparison with nan is false. -/
def flt : RE → RE → Prop
  | RE.nan, _ => False
  | _, RE.nan => False
  | RE.pinf, _ => False
  | RE.minf, RE.minf => False
  | RE.minf, _ => True
  | RE.fin _, RE.pinf => True
  | RE.fin _, RE.minf => False
  | RE.fin x, RE.fin y => x < y

/-- The IEEE >= comparison of a float value against a finite threshold:
false whenever the value is nan. -/
def fge : RE → ℝ → Prop
  | RE.nan, _ => False
  | RE.pinf, _ => True
  | RE.minf, _ => False
  | RE.fin x, t => t ≤ x

/-- np.var with ddof=1 (unbiased): nan on arrays of fewer than two elements
(numpy emits a degrees-of-freedom warning and returns nan there). -/
noncomputable def np_var_ddof1 (l : List ℝ) : RE :=
  if l.length ≤ 1 then RE.nan
  else RE.fin (((l.map fun x => (x - np_average l) ^ 2).sum) / ((l.length : ℝ) - 1))

/-- pval: returns 1.0 outright when the observed error is below the
distribution mean; otherwise the moment-matched tail bound
min(1, floor((n+1)/n * ((n-1)/lam2 + 1)) / (n+1)) with
lam2 = (err_compare - mean)^2 / ((n+1)/n * var(err_dist, ddof=1)).
Python's min(1.0, pr) returns pr exactly when pr < 1.0 (so 1.0 for nan/inf).
The function performs no validation of sample_size (python integer division
(n+1)/n raises ZeroDivisionError for n = 0; the model assumes n ≥ 1). -/
noncomputable def pval (err_dist : List ℝ) (err_compare : ℝ) (sample_size : ℕ) : RE :=
  let err_avg := np_average err_dist
  if err_compare < err_avg then RE.fin 1
  else
    let q2 : RE := fmulR (((sample_size : ℝ) + 1) / (sample_size : ℝ)) (np_var_ddof1 err_dist)
    let lam2 : RE := fdivRE ((err_compare - err_avg) * (err_compare - err_avg)) q2
    let pr : RE := fdivByR
      (ffloor (fmulR (((sample_size : ℝ) + 1) / (sample_size : ℝ))
        (faddOne (fdivRE ((sample_size : ℝ) - 1) lam2))))
      ((sample_size : ℝ) + 1)
    if flt pr (RE.fin 1) then pr else RE.fin 1

/-- One sweep of the scheduler's inner `for i in range(num_workers)` loop:
every slot in turn gains one job while jobs remain to be assigned. -/
def passOnce : List ℕ → ℕ → List ℕ × ℕ
  | [], left => ([], left)
  | j :: rest, left =>
    if 0 < left then
      let r := passOnce rest (left - 1)
      ((j + 1) :: r.1, r.2)
    else (j :: rest, left)

/-- The scheduler's outer `while jobs_left > 0` loop, with explicit fuel (each
sweep over a nonempty slot list assigns at least one job, so fuel
jobs_left + 1 always suffices). -/
def distributeJobs : List ℕ → ℕ → ℕ → List ℕ
  | jobs, _, 0 => jobs
  | jobs, left, fuel + 1 =>
    if 0 < left then
      let r := passOnce jobs left
      distributeJobs r.1 r.2 fuel
    else jobs

/-- The job partition both transports compute: clamp the worker count to
min(incr_sampling, num_workers), assign incr_sampling jobs round-robin one at
a time, then drop zero slots. -/
def jobCounts (incr_sampling num_workers : ℕ) : List ℕ :=
  let w := min incr_sampling num_workers
  (distributeJobs (List.replicate w 0) incr_sampling (incr_sampling + 1)).filter
    fun n => decide (0 < n)

/-- The dispatch guard: both transports raise RuntimeError when the partition
sum disagrees with the requested replicate count, before any dispatch. -/
def scheduledJobs (incr_sampling num_workers : ℕ) : Except String (List ℕ) :=
  let jobs := jobCounts incr_sampling num_workers
  if jobs.sum ≠ incr_sampling then Except.error ("job partition sum mismatch")
  else Except.ok jobs

/-- The `max_sampling is not None and len(ecf_errs) >= max_sampling` guard. -/
def maxReached : Option ℕ → ℕ → Prop
  | some m, n => m ≤ n
  | none, _ => False

/-- The iterative `while err_curr >= err_thresh` loop shared by both
transports, parameterised by the stream of per-batch error samples the
worker pool produces (batch k is what the k-th starmap dispatch appends).
State: (ecf_errs, ecf_err_avg_curr, iter_cur, err_curr).  One fuel unit per
loop iteration; none means fuel ran out before the loop exited (the loop
itself has no such exit).  Loop body, faithful to the source order:
append the batch, compute the new average, err_curr = |avg_next -
avg_curr| / avg_curr in float64 (nan/inf on a zero average, never an
exception), break on a zero new average, increment iter_cur, break when
max_sampling is reached. -/
noncomputable def convergenceLoop (batches : ℕ → List ℝ) (err_thresh : ℝ)
    (max_sampling : Option ℕ) :
    ℕ → List ℝ × ℝ × ℕ × RE → ℕ → Option (List ℝ × ℕ × RE)
  | _, _, 0 => none
  | k, (ecf_errs, avg_curr, iter_cur, err_curr), fuel + 1 =>
    if fge err_curr err_thresh then
      let ecf_errs' := ecf_errs ++ batches k
      let avg_next := np_average ecf_errs'
      let err_curr' := fdiv |avg_next - avg_curr| avg_curr
      if avg_next = 0 then some (ecf_errs', iter_cur, err_curr')
      else if maxReached max_sampling ecf_errs'.length then
        some (ecf_errs', iter_cur + 1, err_curr')
      else convergenceLoop batches err_thresh max_sampling (k + 1)
        (ecf_errs', avg_next, iter_cur + 1, err_curr') fuel
    else some (ecf_errs, iter_cur, err_curr)

/-- test_sampling_shared from the initial batch on: ecf_errs starts as batch
0, err_curr starts at err_thresh + 1.0 (so the loop always runs at least
once), with no zero-average check before the loop. -/
noncomputable def test_sampling_shared (batches : ℕ → List ℝ) (err_thresh : ℝ)
    (max_sampling : Option ℕ) (fuel : ℕ) : Option (List ℝ × ℕ × RE) :=
  convergenceLoop batches err_thresh max_sampling 1
    (batches 0, np_average (batches 0), 0, RE.fin (err_thresh + 1)) fuel

/-- test_sampling_no_shared from the initial batch on: identical to the
shared transport except that err_curr starts at 0.0 when the initial batch
average is exactly zero (lines 423-426), skipping the loop entirely. -/
noncomputable def test_sampling_no_shared (batches : ℕ → List ℝ) (err_thresh : ℝ)
    (max_sampling : Option ℕ) (fuel : ℕ) : Option (List ℝ × ℕ × RE) :=
  convergenceLoop batches err_thresh max_sampling 1
    (batches 0, np_average (batches 0), 0,
      if np_average (batches 0) = 0 then RE.fin 0 else RE.fin (err_thresh + 1)) fuel

/-- Modelled from the spec claim C2 (the reading in which the remainder
element of an odd-length sample is discarded from both halves): first half
results[0 : n/2], second half the next n/2 elements, each of size exactly
⌊n/2⌋.  This is what the claim asserts _ecf_err computes; _ecf_err itself
keeps the remainder in the second half (results[n:]). -/
noncomputable def ecf_err_discard (results : List ℝ) (num_steps num_var_pers : ℕ) : ℝ × ℝ :=
  if np_std results = 0 then (1 / (num_steps : ℝ), 0)
  else
    let incr_max : ℝ := 2 * (num_var_pers : ℝ) * Real.pi / np_std results / (num_steps : ℝ)
    let eval_pts := _ecf_eval_pts num_steps incr_max
    let n := results.length / 2
    (incr_max,
      ecf_compare (ecf (results.take n) eval_pts)
        (ecf ((results.drop n).take n) eval_pts))

/-- The column _results[:, idx] of an m-realization, t-time trajectory
matrix, as the 1-D sample _ecf_err receives. -/
noncomputable def colList {m t : ℕ} (res : Fin m → Fin t → ℝ) (idx : Fin t) : List ℝ :=
  List.ofFn fun i => res i idx

/-- res[indices]: reindexing the realization axis by the current contents of
the worker's `indices` array. -/
def applyIdx {m t : ℕ} (res : Fin m → Fin t → ℝ) (ind : Fin m → Fin m) :
    Fin m → Fin t → ℝ := fun i j => res (ind i) j

/-- _test_sampling_impl_shared: the max over all time indices of the
per-column ecf error (err_iter starts at 0.0). -/
noncomputable def _test_sampling_impl_shared {m t : ℕ} (res : Fin m → Fin t → ℝ)
    (num_steps num_var_pers : ℕ) : ℝ :=
  (List.finRange t).foldl
    (fun err_iter idx =>
      max err_iter (_ecf_err (colList res idx) num_steps num_var_pers).2) 0

/-- _test_sampling_impl_no_shared: textually identical to the shared
implementation in the source. -/
noncomputable def _test_sampling_impl_no_shared {m t : ℕ} (res : Fin m → Fin t → ℝ)
    (num_steps num_var_pers : ℕ) : ℝ :=
  (List.finRange t).foldl
    (fun err_iter idx =>
      max err_iter (_ecf_err (colList res idx) num_steps num_var_pers).2) 0

/-- The replicate loop of the shared-memory worker.  np.random.shuffle
updates `indices` in place (composition with the fresh rearrangement
shuffles k), and results_copy — the copy ALREADY PERMUTED by all previous
replicates — is reindexed by the updated indices; max_val folds from 0.0
over the variables. -/
noncomputable def sharedReplicates {m t : ℕ} (num_steps num_var_pers : ℕ)
    (shuffles : ℕ → Fin m → Fin m) :
    (Fin m → Fin m) → List (Fin m → Fin t → ℝ) → ℕ → ℕ → List ℝ
  | _, _, _, 0 => []
  | indices, results_copy, k, n + 1 =>
    let indices' := indices ∘ shuffles k
    let results_copy' := results_copy.map fun res => applyIdx res indices'
    (results_copy'.foldl
        (fun max_val res =>
          max max_val (_test_sampling_impl_shared res num_steps num_var_pers)) 0) ::
      sharedReplicates num_steps num_var_pers shuffles indices' results_copy' (k + 1) n

/-- _test_sampling_shared, the shared-memory worker: emits num_results
iteration errors (the shared-memory plumbing around the computation writes
them to the worker's disjoint output slice). -/
noncomputable def _test_sampling_shared {m t : ℕ} (results : List (Fin m → Fin t → ℝ))
    (shuffles : ℕ → Fin m → Fin m) (num_results num_steps num_var_pers : ℕ) : List ℝ :=
  sharedReplicates num_steps num_var_pers shuffles id results 0 num_results

/-- The replicate loop of the copy-transport worker: `indices` is shuffled
in place exactly as in the shared worker, but the permutation is applied to
the ORIGINAL results each replicate (res[indices, :] over _results.values()),
and the per-replicate value is python max over the per-variable errors. -/
noncomputable def noSharedReplicates {m t : ℕ} (num_steps num_var_pers : ℕ)
    (results : List (Fin m → Fin t → ℝ)) (shuffles : ℕ → Fin m → Fin m) :
    (Fin m → Fin m) → ℕ → ℕ → List ℝ
  | _, _, 0 => []
  | indices, k, n + 1 =>
    let indices' := indices ∘ shuffles k
    py_max (results.map fun res =>
        _test_sampling_impl_no_shared (applyIdx res indices') num_steps num_var_pers) ::
      noSharedReplicates num_steps num_var_pers results shuffles indices' (k + 1) n

/-- _test_sampling_no_shared, the copy-transport worker. -/
noncomputable def _test_sampling_no_shared {m t : ℕ} (results : List (Fin m → Fin t → ℝ))
    (shuffles : ℕ → Fin m → Fin m) (num_results num_steps num_var_pers : ℕ) : List ℝ :=
  noSharedReplicates num_steps num_var_pers results shuffles id 0 num_results

/-- The one-variable trajectory set of the C1 counterexample: 4 realizations
with values [1, 0, 0, 1] at a single time point. -/
noncomputable def trajC1 : Fin 4 → Fin 1 → ℝ := fun i _ =>
  if i.val = 0 ∨ i.val = 3 then 1 else 0

/-- The cyclic rearrangement realised by the first shuffle draw:
new[j] = old[(j+1) mod 4]. -/
def cycC1 : Fin 4 → Fin 4 := fun i => ⟨(i.val + 1) % 4, Nat.mod_lt _ (by norm_num)⟩

/-- The shuffle draw sequence of the C1 counterexample: the first shuffle
realises the cycle, every later one the identity rearrangement. -/
def shufflesC1 : ℕ → Fin 4 → Fin 4 := fun k => if k = 0 then cycC1 else id

lemma np_average_replicate (m : ℕ) (c : ℝ) (hm : 1 ≤ m) :
    np_average (List.replicate m c) = c := by
  have hm' : (m : ℝ) ≠ 0 := by positivity
  simp [np_average, List.sum_replicate, nsmul_eq_mul]
  field_simp

lemma np_std_replicate (m : ℕ) (c : ℝ) (hm : 1 ≤ m) :
    np_std (List.replicate m c) = 0 := by
  have havg := np_average_replicate m c hm
  have hv : np_var (List.replicate m c) = 0 := by
    simp [np_var, havg, List.map_replicate, List.sum_replicate]
  simp [np_std, hv, Real.sqrt_zero]

/-- C8: on a constant (zero-standard-deviation) sample the error computation
takes the degenerate branch and returns error 0 and increment 1/num_steps. -/
theorem ecf_err_constant_sample (c : ℝ) (m num_steps num_var_pers : ℕ)
    (hm : 1 ≤ m) (hn : 0 < num_steps) (hk : 0 < num_var_pers) :
    _ecf_err (List.replicate m c) num_steps num_var_pers = (1 / (num_steps : ℝ), 0) := by
  rw [_ecf_err, if_pos (np_std_replicate m c hm)]

/-- C8 witness: the constant sample [5,5,5] with num_steps 4 and
num_var_pers 2 yields increment 1/4 and error 0. -/
theorem ecf_err_constant_sample_check :
    1 ≤ 3 ∧ 0 < 4 ∧ 0 < 2 ∧
      _ecf_err (List.replicate 3 (5 : ℝ)) 4 2 = (1 / ((4 : ℕ) : ℝ), 0) :=
  ⟨by norm_num, by norm_num, by norm_num,
    ecf_err_constant_sample 5 3 4 2 (by norm_num) (by norm_num) (by norm_num)⟩

lemma np_var_ddof1_of_len (l : List ℝ) (hlen : 2 ≤ l.length) :
    np_var_ddof1 l =
      RE.fin (((l.map fun x => (x - np_average l) ^ 2).sum) / ((l.length : ℝ) - 1)) := by
  rw [np_var_ddof1, if_neg (by omega)]

lemma np_var_ddof1_val_nonneg (l : List ℝ) (hlen : 2 ≤ l.length) :
    0 ≤ ((l.map fun x => (x - np_average l) ^ 2).sum) / ((l.length : ℝ) - 1) := by
  have hs : 0 ≤ (l.map fun x => (x - np_average l) ^ 2).sum := by
    apply List.sum_nonneg
    intro x hx
    obtain ⟨y, _, rfl⟩ := List.mem_map.mp hx
    positivity
  have hd : 0 ≤ (l.length : ℝ) - 1 := by
    have : (2 : ℝ) ≤ l.length := by exact_mod_cast hlen
    linarith
  exact div_nonneg hs hd

lemma fdivRE_fin (x y : ℝ) : fdivRE x (RE.fin y) = fdiv x y := rfl

lemma fdivRE_nan (x : ℝ) : fdivRE x RE.nan = RE.nan := rfl

lemma fdivRE_pinf (x : ℝ) : fdivRE x RE.pinf = RE.fin 0 := rfl

lemma fmulR_fin (c x : ℝ) : fmulR c (RE.fin x) = RE.fin (c * x) := rfl

lemma fmulR_nan (c : ℝ) : fmulR c RE.nan = RE.nan := rfl

lemma fmulR_pinf_pos (c : ℝ) (h : 0 < c) : fmulR c RE.pinf = RE.pinf := by
  simp [fmulR, h]

lemma faddOne_nan : faddOne RE.nan = RE.nan := rfl

lemma faddOne_pinf : faddOne RE.pinf = RE.pinf := rfl

lemma faddOne_fin (x : ℝ) : faddOne (RE.fin x) = RE.fin (x + 1) := rfl

lemma ffloor_nan : ffloor RE.nan = RE.nan := rfl

lemma ffloor_pinf : ffloor RE.pinf = RE.pinf := rfl

lemma ffloor_fin (x : ℝ) : ffloor (RE.fin x) = RE.fin (Int.floor x : ℤ) := rfl

lemma fdivByR_nan (c : ℝ) : fdivByR RE.nan c = RE.nan := rfl

lemma fdivByR_fin (x c : ℝ) : fdivByR (RE.fin x) c = fdiv x c := rfl

lemma fdivByR_pinf_pos (c : ℝ) (h : 0 < c) : fdivByR RE.pinf c = RE.pinf := by
  simp only [fdivByR, if_neg (not_lt.mpr h.le)]

lemma fdiv_zero_num (y : ℝ) : fdiv 0 y = if y = 0 then RE.nan else RE.fin 0 := by
  simp [fdiv]

lemma fdiv_pos_zero (x : ℝ) (h : 0 < x) : fdiv x 0 = RE.pinf := by
  simp [fdiv, h.ne', h]

lemma fdiv_ne_zero (x y : ℝ) (h : y ≠ 0) : fdiv x y = RE.fin (x / y) := by
  simp [fdiv, h]

lemma flt_nan_left (a : RE) : ¬ flt RE.nan a := by simp [flt]

lemma flt_pinf_left (a : RE) : ¬ flt RE.pinf a := by cases a <;> simp [flt]

lemma flt_fin_fin (x y : ℝ) : flt (RE.fin x) (RE.fin y) ↔ x < y := Iff.rfl

/-- C5: whenever the observed error is at or below the distribution mean
(sample size at least 2 on both counts), pval returns exactly 1.0: strictly
below takes the early return, and equality yields lam2 = 0 whence the
(n-1)/lam2 division produces +inf (or nan when the variance is also zero),
and min(1.0, pr) collapses to 1.0 in either case. -/
theorem pval_at_or_below_mean (err_dist : List ℝ) (err_compare : ℝ) (n : ℕ)
    (hn : 2 ≤ n) (hlen : 2 ≤ err_dist.length)
    (hle : err_compare ≤ np_average err_dist) :
    pval err_dist err_compare n = RE.fin 1 := by
  rw [pval]
  dsimp only
  by_cases hlt : err_compare < np_average err_dist
  · rw [if_pos hlt]
  · rw [if_neg hlt]
    have heq : err_compare - np_average err_dist = 0 := by
      have := not_lt.mp hlt
      linarith
    have hκ : 0 < ((n : ℝ) + 1) / (n : ℝ) := by
      have : (0 : ℝ) < n := by exact_mod_cast (by omega : 0 < n)
      positivity
    have hn1 : 0 < (n : ℝ) - 1 := by
      have : (2 : ℝ) ≤ n := by exact_mod_cast hn
      linarith
    rw [np_var_ddof1_of_len err_dist hlen, heq, zero_mul, fmulR_fin, fdivRE_fin,
      fdiv_zero_num]
    by_cases hkv : ((n : ℝ) + 1) / (n : ℝ) *
        ((err_dist.map fun x => (x - np_average err_dist) ^ 2).sum /
          ((err_dist.length : ℝ) - 1)) = 0
    · rw [if_pos hkv, fdivRE_nan, faddOne_nan, fmulR_nan, ffloor_nan, fdivByR_nan,
        if_neg (flt_nan_left _)]
    · rw [if_neg hkv, fdivRE_fin, fdiv_pos_zero _ hn1, faddOne_pinf,
        fmulR_pinf_pos _ hκ, ffloor_pinf, fdivByR_pinf_pos _ (by positivity),
        if_neg (flt_pinf_left _)]

/-- C5 witness: the zero-variance distribution [1,1,1,1,1] with observed
error 1.0 (equal to the mean) and sample size 5 gives exactly 1.0. -/
theorem pval_at_or_below_mean_check :
    2 ≤ 5 ∧ 2 ≤ ([(1 : ℝ), 1, 1, 1, 1]).length ∧
      (1 : ℝ) ≤ np_average [(1 : ℝ), 1, 1, 1, 1] ∧
      pval [(1 : ℝ), 1, 1, 1, 1] 1 5 = RE.fin 1 :=
  ⟨by norm_num, by norm_num, by norm_num [np_average],
    pval_at_or_below_mean [(1 : ℝ), 1, 1, 1, 1] 1 5 (by norm_num) (by norm_num)
      (by norm_num [np_average])⟩

/-- C6: for a valid input (distribution of size at least 2 and sample size at
least 2) the value pval returns is a finite float in the closed interval
[0, 1]: every code path ends in either the early 1.0 return, the
min(1.0, ...) clamp applied to a nan/inf (giving 1.0), or a quotient
floor(...)/(n+1) lying strictly between 0 and 1. -/
theorem pval_in_unit_interval (err_dist : List ℝ) (err_compare : ℝ) (n : ℕ)
    (hn : 2 ≤ n) (hlen : 2 ≤ err_dist.length) :
    ∃ x : ℝ, pval err_dist err_compare n = RE.fin x ∧ 0 ≤ x ∧ x ≤ 1 := by
  have hnpos : (0 : ℝ) < n := by exact_mod_cast (by omega : 0 < n)
  have hκ : 0 < ((n : ℝ) + 1) / (n : ℝ) := by positivity
  have hκ1 : 1 ≤ ((n : ℝ) + 1) / (n : ℝ) := by
    rw [le_div_iff hnpos]
    linarith
  have hκ2 : ((n : ℝ) + 1) / (n : ℝ) < 2 := by
    rw [div_lt_iff hnpos]
    have : (2 : ℝ) ≤ n := by exact_mod_cast hn
    linarith
  have hn1 : 0 < (n : ℝ) - 1 := by
    have : (2 : ℝ) ≤ n := by exact_mod_cast hn
    linarith
  have hn1' : (0 : ℝ) < (n : ℝ) + 1 := by positivity
  rw [pval]
  dsimp only
  by_cases hlt : err_compare < np_average err_dist
  · exact ⟨1, by rw [if_pos hlt], by norm_num, le_refl 1⟩
  · rw [if_neg hlt]
    rw [np_var_ddof1_of_len err_dist hlen, fmulR_fin, fdivRE_fin]
    have hv0 := np_var_ddof1_val_nonneg err_dist hlen
    set v := ((err_dist.map fun x => (x - np_average err_dist) ^ 2).sum) /
      ((err_dist.length : ℝ) - 1) with hv
    set d2 := (err_compare - np_average err_dist) * (err_compare - np_average err_dist)
      with hd2
    have hd2nn : 0 ≤ d2 := mul_self_nonneg _
    by_cases hkv : ((n : ℝ) + 1) / (n : ℝ) * v = 0
    · rw [hkv]
      by_cases hd2z : d2 = 0
      · rw [hd2z, fdiv_zero_num, if_pos rfl, fdivRE_nan, faddOne_nan, fmulR_nan,
          ffloor_nan, fdivByR_nan, if_neg (flt_nan_left _)]
        exact ⟨1, rfl, by norm_num, le_refl 1⟩
      · rw [fdiv_pos_zero _ (lt_of_le_of_ne hd2nn (Ne.symm hd2z)), fdivRE_pinf,
          faddOne_fin, zero_add, fmulR_fin, mul_one, ffloor_fin]
        have hfl : Int.floor (((n : ℝ) + 1) / (n : ℝ)) = 1 :=
          Int.floor_eq_iff.mpr (by constructor <;> [exact_mod_cast hκ1;
            exact_mod_cast hκ2])
        rw [hfl, fdivByR_fin, fdiv_ne_zero _ _ hn1'.ne']
        have hp0 : (0 : ℝ) ≤ (1 : ℤ) / ((n : ℝ) + 1) := by positivity
        have hp1 : ((1 : ℤ) : ℝ) / ((n : ℝ) + 1) < 1 := by
          rw [div_lt_one hn1']
          push_cast
          linarith
        rw [if_pos ((flt_fin_fin _ _).mpr hp1)]
        exact ⟨_, rfl, hp0, hp1.le⟩
    · have hkvpos : 0 < ((n : ℝ) + 1) / (n : ℝ) * v :=
        lt_of_le_of_ne (mul_nonneg hκ.le hv0) (Ne.symm hkv)
      rw [fdiv_ne_zero _ _ hkv, fdivRE_fin]
      set L := d2 / (((n : ℝ) + 1) / (n : ℝ) * v) with hL
      have hLnn : 0 ≤ L := div_nonneg hd2nn hkvpos.le
      by_cases hL0 : L = 0
      · rw [hL0, fdiv_pos_zero _ hn1, faddOne_pinf, fmulR_pinf_pos _ hκ, ffloor_pinf,
          fdivByR_pinf_pos _ hn1', if_neg (flt_pinf_left _)]
        exact ⟨1, rfl, by norm_num, le_refl 1⟩
      · rw [fdiv_ne_zero _ _ hL0, faddOne_fin, fmulR_fin, ffloor_fin]
        have hz : 0 ≤ ((n : ℝ) - 1) / L := div_nonneg hn1.le hLnn
        have hu1 : (1 : ℝ) ≤ ((n : ℝ) + 1) / (n : ℝ) * (((n : ℝ) - 1) / L + 1) := by
          have h1 : (1 : ℝ) ≤ ((n : ℝ) - 1) / L + 1 := by linarith
          calc (1 : ℝ) = 1 * 1 := by norm_num
          _ ≤ (((n : ℝ) + 1) / (n : ℝ)) * (((n : ℝ) - 1) / L + 1) :=
            mul_le_mul hκ1 h1 (by norm_num) hκ.le
        have hF1 : (1 : ℤ) ≤ Int.floor (((n : ℝ) + 1) / (n : ℝ) *
            (((n : ℝ) - 1) / L + 1)) := Int.le_floor.mpr (by exact_mod_cast hu1)
        rw [fdivByR_fin, fdiv_ne_zero _ _ hn1'.ne']
        set F := Int.floor (((n : ℝ) + 1) / (n : ℝ) * (((n : ℝ) - 1) / L + 1)) with hF
        have hp0 : (0 : ℝ) ≤ (F : ℝ) / ((n : ℝ) + 1) := by
          apply div_nonneg _ hn1'.le
          exact_mod_cast le_trans (by norm_num) hF1
        by_cases hp : ((F : ℝ)) / ((n : ℝ) + 1) < 1
        · rw [if_pos ((flt_fin_fin _ _).mpr hp)]
          exact ⟨_, rfl, hp0, hp.le⟩
        · rw [if_neg fun hc => hp ((flt_fin_fin _ _).mp hc)]
          exact ⟨1, rfl, by norm_num, le_refl 1⟩

/-- C6 witness: a concrete valid input (distribution [1,3], observed error 4,
sample size 2) produces a finite value in [0, 1]. -/
theorem pval_in_unit_interval_check :
    2 ≤ 2 ∧ 2 ≤ ([(1 : ℝ), 3]).length ∧
      ∃ x : ℝ, pval [(1 : ℝ), 3] 4 2 = RE.fin x ∧ 0 ≤ x ∧ x ≤ 1 :=
  ⟨le_refl 2, by norm_num,
    pval_in_unit_interval [(1 : ℝ), 3] 4 2 (le_refl 2) (by norm_num)⟩

/-- C4: pval performs no validation of sample_size.  Called with the
undersized sample_size 1 (distribution [1,3], observed error 4) it runs to
completion and returns the value 1.0 — not an invalid-input error: lam2 = 1,
(n-1)/lam2 = 0, pr = floor(2*(0+1))/2 = 1, min(1.0, 1.0) = 1.0.  (With
sample_size 0 the python integer division (n+1)/n raises ZeroDivisionError,
which is a divide-by-zero, again not an explicit invalid-input error.) -/
theorem pval_sample_size_one_returns_value :
    pval [(1 : ℝ), 3] 4 1 = RE.fin 1 := by
  have havg : np_average [(1 : ℝ), 3] = 2 := by
    norm_num [np_average]
  have hvar : np_var_ddof1 [(1 : ℝ), 3] = RE.fin 2 := by
    rw [np_var_ddof1_of_len _ (by norm_num)]
    norm_num [np_average]
  rw [pval]
  dsimp only
  rw [if_neg (by rw [havg]; norm_num), hvar, fmulR_fin, fdivRE_fin, havg]
  norm_num
  rw [fdiv_ne_zero _ _ (by norm_num), fdivRE_fin]
  norm_num
  rw [fdiv_ne_zero _ _ (by norm_num)]
  norm_num [faddOne_fin, fmulR_fin, ffloor_fin, fdivByR_fin]
  rw [fdiv_ne_zero _ _ (by norm_num)]
  norm_num [flt]

lemma passOnce_replicate (k : ℕ) : ∀ (w left : ℕ),
    passOnce (List.replicate w k) left =
      (List.replicate (min left w) (k + 1) ++ List.replicate (w - min left w) k,
        left - min left w) := by
  intro w
  induction w with
  | zero => intro left; simp [passOnce]
  | succ w ih =>
    intro left
    rw [List.replicate_succ, passOnce]
    by_cases hl : 0 < left
    · rw [if_pos hl]
      simp only [ih (left - 1)]
      have hmin : min left (w + 1) = min (left - 1) w + 1 := by omega
      have hsub : w + 1 - min left (w + 1) = w - min (left - 1) w := by omega
      have hleft : left - 1 - min (left - 1) w = left - min left (w + 1) := by omega
      rw [hmin, List.replicate_succ]
      refine Prod.ext ?_ ?_
      · simp only [List.cons_append]
        have hs : w + 1 - (min (left - 1) w + 1) = w - min (left - 1) w := by omega
        rw [hs]
      · simp only
        omega
    · rw [if_neg hl]
      have : left = 0 := by omega
      subst this
      simp [List.replicate_succ]

lemma distributeJobs_zero_left (jobs : List ℕ) : ∀ fuel, distributeJobs jobs 0 fuel = jobs := by
  intro fuel
  cases fuel with
  | zero => rfl
  | succ fuel => rw [distributeJobs, if_neg (by omega)]

lemma distributeJobs_replicate : ∀ (fuel w k left : ℕ), 1 ≤ w → left ≤ fuel →
    distributeJobs (List.replicate w k) left fuel =
      List.replicate (left % w) (k + left / w + 1) ++
        List.replicate (w - left % w) (k + left / w) := by
  intro fuel
  induction fuel with
  | zero =>
    intro w k left hw hleft
    have : left = 0 := by omega
    subst this
    rw [distributeJobs]
    simp [Nat.zero_mod, Nat.zero_div]
  | succ fuel ih =>
    intro w k left hw hleft
    by_cases hl : 0 < left
    · rw [distributeJobs, if_pos hl]
      simp only [passOnce_replicate]
      by_cases hwl : w ≤ left
      · have hmin : min left w = w := by omega
        rw [hmin]
        simp only [Nat.sub_self, List.replicate_zero, List.append_nil]
        rw [ih w (k + 1) (left - w) hw (by omega)]
        have hmod : (left - w) % w = left % w := by
          conv_rhs => rw [Nat.mod_eq_sub_mod hwl]
        have hdiv : left / w = (left - w) / w + 1 := by
          rw [Nat.div_eq_sub_div (by omega) hwl]
        rw [hmod, hdiv]
        congr 1 <;> congr 1 <;> omega
      · have hmin : min left w = left := by omega
        rw [hmin, show left - left = 0 from by omega, distributeJobs_zero_left]
        have hmod : left % w = left := Nat.mod_eq_of_lt (by omega)
        have hdiv : left / w = 0 := Nat.div_eq_of_lt (by omega)
        rw [hmod, hdiv]
        simp
    · have : left = 0 := by omega
      subst this
      rw [distributeJobs, if_neg (by omega)]
      simp [Nat.zero_mod, Nat.zero_div]

lemma jobCounts_closed_form (incr_sampling num_workers : ℕ)
    (hi : 1 ≤ incr_sampling) (hw : 1 ≤ num_workers) :
    jobCounts incr_sampling num_workers =
      List.replicate (incr_sampling % min incr_sampling num_workers)
        (incr_sampling / min incr_sampling num_workers + 1) ++
      List.replicate (min incr_sampling num_workers -
          incr_sampling % min incr_sampling num_workers)
        (incr_sampling / min incr_sampling num_workers) := by
  have hwpos : 1 ≤ min incr_sampling num_workers := by omega
  have hq : 1 ≤ incr_sampling / min incr_sampling num_workers :=
    (Nat.one_le_div_iff (by omega)).mpr (by omega)
  rw [jobCounts, distributeJobs_replicate (incr_sampling + 1)
    (min incr_sampling num_workers) 0 incr_sampling hwpos (by omega)]
  rw [List.filter_eq_self.mpr]
  · simp
  · intro a ha
    rcases List.mem_append.mp ha with h | h
    · rw [List.eq_of_mem_replicate h]
      simp
    · rw [List.eq_of_mem_replicate h]
      simp
      omega

lemma jobCounts_mem (incr_sampling num_workers : ℕ)
    (hi : 1 ≤ incr_sampling) (hw : 1 ≤ num_workers) :
    ∀ j ∈ jobCounts incr_sampling num_workers,
      (j = incr_sampling / min incr_sampling num_workers + 1 ∧
        0 < incr_sampling % min incr_sampling num_workers) ∨
      j = incr_sampling / min incr_sampling num_workers := by
  intro j hj
  rw [jobCounts_closed_form incr_sampling num_workers hi hw] at hj
  rcases List.mem_append.mp hj with h | h
  · obtain ⟨hr, hjv⟩ := List.mem_replicate.mp h
    exact Or.inl ⟨hjv, by omega⟩
  · exact Or.inr (List.eq_of_mem_replicate h)

/-- C7: for any incr_sampling ≥ 1 and num_workers ≥ 1 the partition the
transports build sums exactly to incr_sampling, has no zero entry, has no
entry above the ceiling of incr_sampling/num_workers, has entries differing
by at most one, and passes the pre-dispatch sum guard (which would raise a
RuntimeError on a mismatch) without error. -/
theorem job_partition_properties (incr_sampling num_workers : ℕ)
    (hi : 1 ≤ incr_sampling) (hw : 1 ≤ num_workers) :
    (jobCounts incr_sampling num_workers).sum = incr_sampling ∧
    0 ∉ jobCounts incr_sampling num_workers ∧
    (∀ j ∈ jobCounts incr_sampling num_workers,
      j ≤ (incr_sampling + num_workers - 1) / num_workers) ∧
    (∀ j ∈ jobCounts incr_sampling num_workers,
      ∀ j' ∈ jobCounts incr_sampling num_workers, j ≤ j' + 1) ∧
    scheduledJobs incr_sampling num_workers =
      Except.ok (jobCounts incr_sampling num_workers) := by
  have hcf := jobCounts_closed_form incr_sampling num_workers hi hw
  have hmem := jobCounts_mem incr_sampling num_workers hi hw
  have hdm := Nat.div_add_mod incr_sampling (min incr_sampling num_workers)
  have hrlt : incr_sampling % min incr_sampling num_workers <
      min incr_sampling num_workers := Nat.mod_lt _ (by omega)
  have hq1 : 1 ≤ incr_sampling / min incr_sampling num_workers :=
    (Nat.one_le_div_iff (by omega)).mpr (by omega)
  set w := min incr_sampling num_workers with hwdef
  set q := incr_sampling / w with hqdef
  set r := incr_sampling % w with hrdef
  have hnw : 0 < num_workers := by omega
  have hsum : (jobCounts incr_sampling num_workers).sum = incr_sampling := by
    rw [hcf, List.sum_append, List.sum_replicate, List.sum_replicate,
      smul_eq_mul, smul_eq_mul]
    have h1 : r * q ≤ w * q := Nat.mul_le_mul_right q hrlt.le
    have h2 : (w - r) * q = w * q - r * q := Nat.sub_mul w r q
    have h3 : r * (q + 1) = r * q + r := by rw [Nat.mul_add, Nat.mul_one]
    omega
  refine ⟨hsum, ?_, ?_, ?_, ?_⟩
  · intro h0
    rcases hmem 0 h0 with ⟨h, _⟩ | h <;> omega
  · intro j hj
    rcases hmem j hj with ⟨hjv, hr0⟩ | hjv <;> subst hjv
    · rw [Nat.le_div_iff_mul_le hnw]
      have hww : w = num_workers := by
        rcases (by omega : w = num_workers ∨ w = incr_sampling) with h | h
        · exact h
        · exfalso
          have hwq : w ≤ w * q := Nat.le_mul_of_pos_right w (by omega)
          omega
      have hlink : w * q = q * num_workers := by rw [hww, Nat.mul_comm]
      have hexp : (q + 1) * num_workers = q * num_workers + num_workers := by
        rw [Nat.add_mul, Nat.one_mul]
      omega
    · rw [Nat.le_div_iff_mul_le hnw]
      rcases (by omega : w = num_workers ∨ w = incr_sampling) with h | h
      · have hlink : w * q = q * num_workers := by rw [h, Nat.mul_comm]
        omega
      · have hqq : q = 1 := by
          rw [hqdef, h]
          exact Nat.div_self hi
        rw [hqq, Nat.one_mul]
        omega
  · intro j hj j' hj'
    rcases hmem j hj with ⟨hjv, _⟩ | hjv <;>
      rcases hmem j' hj' with ⟨hjv', _⟩ | hjv' <;> omega
  · rw [scheduledJobs]
    rw [if_neg (by simp [hsum])]

/-- C7 witness: 5 replicates over 3 workers gives a partition summing to 5
with no zero entry. -/
theorem job_partition_properties_check :
    (jobCounts 5 3).sum = 5 ∧ 0 ∉ jobCounts 5 3 :=
  ⟨(job_partition_properties 5 3 (by norm_num) (by norm_num)).1,
    (job_partition_properties 5 3 (by norm_num) (by norm_num)).2.1⟩

lemma maxReached_some (m n : ℕ) : maxReached (some m) n ↔ m ≤ n := Iff.rfl

/-- C3: on an all-zero error source with err_thresh 1e-4, the copy transport
stops immediately after the initial batch and returns relative error 0.0,
but the shared transport (which lacks the pre-loop zero-average check)
dispatches one more batch and returns err_curr = nan (the float64 quotient
0.0/0.0), not 0.0 — the loop neither stops immediately nor reports 0.0. -/
theorem zero_average_shared_vs_no_shared :
    test_sampling_shared (fun _ => [0]) (1 / 10000) none 2 =
      some ([0, 0], 0, RE.nan) ∧
    test_sampling_no_shared (fun _ => [0]) (1 / 10000) none 2 =
      some ([0], 0, RE.fin 0) := by
  have h0 : np_average [(0 : ℝ)] = 0 := by norm_num [np_average]
  have h00 : np_average [(0 : ℝ), 0] = 0 := by norm_num [np_average]
  constructor
  · rw [test_sampling_shared, convergenceLoop]
    rw [if_pos (show fge (RE.fin (1 / 10000 + 1)) (1 / 10000) by
      rw [fge]; norm_num)]
    simp only [List.cons_append, List.nil_append]
    rw [if_pos h00, h00, h0]
    rw [show fdiv |(0 : ℝ) - 0| 0 = RE.nan by rw [fdiv]; norm_num]
  · rw [test_sampling_no_shared, h0, if_pos rfl, convergenceLoop]
    rw [if_neg (show ¬ fge (RE.fin 0) (1 / 10000) by rw [fge]; norm_num)]

lemma convergenceLoop_capped_terminates (batches : ℕ → List ℝ) (err_thresh : ℝ)
    (M : ℕ) (hb : ∀ j, 1 ≤ (batches j).length) :
    ∀ fuel k ecf_errs avg_curr iter_cur err_curr, 1 ≤ fuel →
      M + 1 ≤ ecf_errs.length + fuel →
      ∃ res, convergenceLoop batches err_thresh (some M) k
        (ecf_errs, avg_curr, iter_cur, err_curr) fuel = some res := by
  intro fuel
  induction fuel with
  | zero =>
    intro k e a i er h1 _
    omega
  | succ fuel ih =>
    intro k e a i er _ h2
    rw [convergenceLoop]
    by_cases hge : fge er err_thresh
    · rw [if_pos hge]
      by_cases hz : np_average (e ++ batches k) = 0
      · rw [if_pos hz]
        exact ⟨_, rfl⟩
      · rw [if_neg hz]
        by_cases hm : maxReached (some M) (e ++ batches k).length
        · rw [if_pos hm]
          exact ⟨_, rfl⟩
        · rw [if_neg hm]
          rw [maxReached_some] at hm
          have hlen : e.length + 1 ≤ (e ++ batches k).length := by
            rw [List.length_append]
            have := hb k
            omega
          exact ih (k + 1) (e ++ batches k) _ _ _ (by omega) (by omega)
    · rw [if_neg hge]
      exact ⟨_, rfl⟩

/-- C9: whenever max_sampling is set (to any M) and the batches all carry
incr_sampling ≥ 1 error values, both transports' convergence loops terminate
within M + 1 iterations and return normally through the function's return
value — the cap path is a break, never an exception (the only raise in
either function is the pre-dispatch partition guard, which C7 shows never
fires). -/
theorem capped_run_terminates (batches : ℕ → List ℝ) (err_thresh : ℝ)
    (M incr_sampling : ℕ) (hincr : 1 ≤ incr_sampling)
    (hb : ∀ j, (batches j).length = incr_sampling) :
    (∃ res, test_sampling_shared batches err_thresh (some M) (M + 1) = some res) ∧
    (∃ res, test_sampling_no_shared batches err_thresh (some M) (M + 1) = some res) := by
  have hb1 : ∀ j, 1 ≤ (batches j).length := fun j => by rw [hb j]; exact hincr
  constructor
  · rw [test_sampling_shared]
    exact convergenceLoop_capped_terminates batches err_thresh M hb1 (M + 1) 1
      (batches 0) _ _ _ (by omega) (by omega)
  · rw [test_sampling_no_shared]
    exact convergenceLoop_capped_terminates batches err_thresh M hb1 (M + 1) 1
      (batches 0) _ _ _ (by omega) (by omega)

/-- C9 witness: a constant error source of batches [1] with err_thresh 1 and
max_sampling 1 terminates in both transports. -/
theorem capped_run_terminates_check :
    (∃ res, test_sampling_shared (fun _ => [1]) 1 (some 1) 2 = some res) ∧
    (∃ res, test_sampling_no_shared (fun _ => [1]) 1 (some 1) 2 = some res) :=
  capped_run_terminates (fun _ => [1]) 1 1 1 (le_refl 1) (fun _ => rfl)

lemma convergenceLoop_length_multiple (batches : ℕ → List ℝ) (err_thresh : ℝ)
    (max_sampling : Option ℕ) (incr_sampling : ℕ)
    (hb : ∀ j, (batches j).length = incr_sampling) :
    ∀ fuel k ecf_errs avg_curr iter_cur err_curr out,
      convergenceLoop batches err_thresh max_sampling k
        (ecf_errs, avg_curr, iter_cur, err_curr) fuel = some out →
      ∃ d, out.1.length = ecf_errs.length + d * incr_sampling := by
  intro fuel
  induction fuel with
  | zero =>
    intro k e a i er out h
    rw [convergenceLoop] at h
    exact absurd h (by simp)
  | succ fuel ih =>
    intro k e a i er out h
    rw [convergenceLoop] at h
    by_cases hge : fge er err_thresh
    · rw [if_pos hge] at h
      by_cases hz : np_average (e ++ batches k) = 0
      · rw [if_pos hz] at h
        obtain rfl := (Option.some.injEq _ _).mp h
        exact ⟨1, by rw [List.length_append, hb k, Nat.one_mul]⟩
      · rw [if_neg hz] at h
        by_cases hm : maxReached max_sampling (e ++ batches k).length
        · rw [if_pos hm] at h
          obtain rfl := (Option.some.injEq _ _).mp h
          exact ⟨1, by rw [List.length_append, hb k, Nat.one_mul]⟩
        · rw [if_neg hm] at h
          obtain ⟨d, hd⟩ := ih (k + 1) (e ++ batches k) _ _ _ out h
          refine ⟨d + 1, ?_⟩
          rw [hd, List.length_append, hb k]
          have : (d + 1) * incr_sampling = d * incr_sampling + incr_sampling := by
            rw [Nat.add_mul, Nat.one_mul]
          omega
    · rw [if_neg hge] at h
      obtain rfl := (Option.some.injEq _ _).mp h
      exact ⟨0, by simp⟩

lemma convergenceLoop_length_capped (batches : ℕ → List ℝ) (err_thresh : ℝ)
    (M incr_sampling : ℕ) (hb : ∀ j, (batches j).length = incr_sampling) :
    ∀ fuel k ecf_errs avg_curr iter_cur err_curr out,
      convergenceLoop batches err_thresh (some M) k
        (ecf_errs, avg_curr, iter_cur, err_curr) fuel = some out →
      out.1.length ≤ max (ecf_errs.length + incr_sampling) (M + incr_sampling - 1) := by
  intro fuel
  induction fuel with
  | zero =>
    intro k e a i er out h
    rw [convergenceLoop] at h
    exact absurd h (by simp)
  | succ fuel ih =>
    intro k e a i er out h
    rw [convergenceLoop] at h
    by_cases hge : fge er err_thresh
    · rw [if_pos hge] at h
      by_cases hz : np_average (e ++ batches k) = 0
      · rw [if_pos hz] at h
        obtain rfl := (Option.some.injEq _ _).mp h
        have : (e ++ batches k).length = e.length + incr_sampling := by
          rw [List.length_append, hb k]
        dsimp only
        omega
      · rw [if_neg hz] at h
        by_cases hm : maxReached (some M) (e ++ batches k).length
        · rw [if_pos hm] at h
          obtain rfl := (Option.some.injEq _ _).mp h
          have : (e ++ batches k).length = e.length + incr_sampling := by
            rw [List.length_append, hb k]
          dsimp only
          omega
        · rw [if_neg hm] at h
          rw [maxReached_some] at hm
          have hlen : (e ++ batches k).length = e.length + incr_sampling := by
            rw [List.length_append, hb k]
          have hrec := ih (k + 1) (e ++ batches k) _ _ _ out h
          omega
    · rw [if_neg hge] at h
      obtain rfl := (Option.some.injEq _ _).mp h
      dsimp only
      omega

/-- C10 amended: for both transports, any returned error sample has length a
positive multiple of incr_sampling (every batch, the initial one included,
appends exactly incr_sampling values); and when max_sampling = M is set WITH
M > incr_sampling, the final length is at most M + incr_sampling - 1.  (The
overshoot bound genuinely needs M > incr_sampling: the loop body always runs
at least once before the cap is consulted, so a cap at or below the initial
batch size still yields a sample of 2*incr_sampling values.) -/
theorem sample_length_batches (batches : ℕ → List ℝ) (err_thresh : ℝ)
    (max_sampling : Option ℕ) (incr_sampling : ℕ)
    (hincr : 1 ≤ incr_sampling) (hb : ∀ j, (batches j).length = incr_sampling) :
    (∀ fuel out, test_sampling_shared batches err_thresh max_sampling fuel = some out →
      (∃ d, 1 ≤ d ∧ out.1.length = d * incr_sampling) ∧
      ∀ M, max_sampling = some M → incr_sampling < M →
        out.1.length ≤ M + incr_sampling - 1) ∧
    (∀ fuel out, test_sampling_no_shared batches err_thresh max_sampling fuel = some out →
      (∃ d, 1 ≤ d ∧ out.1.length = d * incr_sampling) ∧
      ∀ M, max_sampling = some M → incr_sampling < M →
        out.1.length ≤ M + incr_sampling - 1) := by
  have hmain : ∀ er fuel out,
      convergenceLoop batches err_thresh max_sampling 1
        (batches 0, np_average (batches 0), 0, er) fuel = some out →
      (∃ d, 1 ≤ d ∧ out.1.length = d * incr_sampling) ∧
      ∀ M, max_sampling = some M → incr_sampling < M →
        out.1.length ≤ M + incr_sampling - 1 := by
    intro er fuel out h
    constructor
    · obtain ⟨d, hd⟩ := convergenceLoop_length_multiple batches err_thresh
        max_sampling incr_sampling hb fuel 1 (batches 0) _ _ _ out h
      refine ⟨d + 1, by omega, ?_⟩
      rw [hd, hb 0]
      have : (d + 1) * incr_sampling = d * incr_sampling + incr_sampling := by
        rw [Nat.add_mul, Nat.one_mul]
      omega
    · intro M hM hMgt
      subst hM
      have hcap := convergenceLoop_length_capped batches err_thresh M
        incr_sampling hb fuel 1 (batches 0) _ _ _ out h
      rw [hb 0] at hcap
      omega
  exact ⟨fun fuel out h => hmain _ fuel out h, fun fuel out h => hmain _ fuel out h⟩

/-- C10 amended witness: the copy transport with unit batches [0] and
err_thresh 1 returns after the initial batch with a sample of length 1 * 1. -/
theorem sample_length_batches_check :
    ∃ d, 1 ≤ d ∧ ([(0 : ℝ)]).length = d * 1 := by
  have hb : ∀ j : ℕ, ((fun _ : ℕ => [(0 : ℝ)]) j).length = 1 := fun _ => rfl
  have h0 : np_average [(0 : ℝ)] = 0 := by norm_num [np_average]
  have hrun : test_sampling_no_shared (fun _ => [(0 : ℝ)]) 1 none 1 =
      some ([(0 : ℝ)], 0, RE.fin 0) := by
    rw [test_sampling_no_shared, h0, if_pos rfl, convergenceLoop]
    rw [if_neg (show ¬ fge (RE.fin 0) (1 : ℝ) by rw [fge]; norm_num)]
  have := ((sample_length_batches (fun _ => [(0 : ℝ)]) 1 none 1 (le_refl 1)
    hb).2 1 ([(0 : ℝ)], 0, RE.fin 0) hrun).1
  exact this

/-- C10 counterexample: with incr_sampling 2 (batches [1,1]) and
max_sampling 1 the shared transport returns a sample of length 4, exceeding
max_sampling + incr_sampling - 1 = 2: the claimed overshoot bound fails when
the cap is not larger than the batch size, because the loop always runs one
iteration before consulting the cap. -/
theorem sample_length_cap_overshoot :
    test_sampling_shared (fun _ => [1, 1]) (1 / 10000) (some 1) 3 =
      some ([1, 1, 1, 1], 1, RE.fin 0) ∧
    ¬ (([(1 : ℝ), 1, 1, 1]).length ≤ 1 + 2 - 1) := by
  constructor
  · have h1 : np_average [(1 : ℝ), 1] = 1 := by norm_num [np_average]
    have h2 : np_average [(1 : ℝ), 1, 1, 1] = 1 := by norm_num [np_average]
    rw [test_sampling_shared, convergenceLoop]
    rw [if_pos (show fge (RE.fin (1 / 10000 + 1)) (1 / 10000) by
      rw [fge]; norm_num)]
    simp only [List.cons_append, List.nil_append]
    rw [if_neg (show ¬ np_average [(1 : ℝ), 1, 1, 1] = 0 by rw [h2]; norm_num)]
    rw [if_pos (show maxReached (some 1) ([(1 : ℝ), 1, 1, 1]).length by
      rw [maxReached_some]; norm_num)]
    rw [h1, h2]
    rw [show fdiv |(1 : ℝ) - 1| 1 = RE.fin 0 by rw [fdiv]; norm_num]
  · norm_num

lemma np_std_sample5 : np_std [0, 0, 0, 0, (5 : ℝ) / 2] = 1 := by
  have hvar : np_var [0, 0, 0, 0, (5 : ℝ) / 2] = 1 := by
    norm_num [np_var, np_average]
  rw [np_std, hvar, Real.sqrt_one]

lemma eval_pts5 (incr : ℝ) :
    _ecf_eval_pts 5 incr = [0, incr, 2 * incr, 3 * incr, 4 * incr, 5 * incr] := by
  rw [_ecf_eval_pts, show List.range (5 + 1) = [0, 1, 2, 3, 4, 5] from rfl]
  norm_num

lemma ecf_zeros2 (pts : List ℝ) :
    ecf [(0 : ℝ), 0] pts = pts.map fun _ => (1, 0) := by
  rw [ecf]
  refine List.map_congr_left ?_
  intro t _
  norm_num [np_average]

lemma ecf_zeros2_half (pts : List ℝ) :
    ecf [(0 : ℝ), 0, 5 / 2] pts =
      pts.map fun t => ((2 + Real.cos (t * (5 / 2))) / 3, Real.sin (t * (5 / 2)) / 3) := by
  rw [ecf]
  refine List.map_congr_left ?_
  intro t _
  rw [Prod.mk.injEq]
  refine ⟨?_, ?_⟩
  · rw [np_average]
    norm_num
    ring
  · rw [np_average]
    norm_num

lemma ecf_err_sample5_val :
    _ecf_err [0, 0, 0, 0, (5 : ℝ) / 2] 5 1 = (2 * Real.pi / 5, 2 / 3) := by
  rw [_ecf_err, if_neg (by rw [np_std_sample5]; norm_num)]
  dsimp only
  rw [np_std_sample5]
  rw [show 2 * ((1 : ℕ) : ℝ) * Real.pi / 1 / ((5 : ℕ) : ℝ) = 2 * Real.pi / 5 by
    push_cast; ring]
  rw [show ([0, 0, 0, 0, (5 : ℝ) / 2] : List ℝ).length / 2 = 2 by norm_num]
  rw [show ([0, 0, 0, 0, (5 : ℝ) / 2] : List ℝ).take 2 = [0, 0] by simp]
  rw [show ([0, 0, 0, 0, (5 : ℝ) / 2] : List ℝ).drop 2 = [0, 0, (5 : ℝ) / 2] by simp]
  rw [eval_pts5, ecf_zeros2, ecf_zeros2_half]
  rw [ecf_compare, List.zip_map', List.map_map]
  rw [Prod.mk.injEq]
  refine ⟨rfl, ?_⟩
  have hc1 : Real.cos (2 * Real.pi / 5 * (5 / 2)) = -1 := by
    rw [show 2 * Real.pi / 5 * (5 / 2) = Real.pi by ring, Real.cos_pi]
  have hs1 : Real.sin (2 * Real.pi / 5 * (5 / 2)) = 0 := by
    rw [show 2 * Real.pi / 5 * (5 / 2) = Real.pi by ring, Real.sin_pi]
  have hc2 : Real.cos (2 * (2 * Real.pi / 5) * (5 / 2)) = 1 := by
    rw [show 2 * (2 * Real.pi / 5) * (5 / 2) = 2 * Real.pi by ring, Real.cos_two_pi]
  have hs2 : Real.sin (2 * (2 * Real.pi / 5) * (5 / 2)) = 0 := by
    rw [show 2 * (2 * Real.pi / 5) * (5 / 2) = 2 * Real.pi by ring, Real.sin_two_pi]
  have hc3 : Real.cos (3 * (2 * Real.pi / 5) * (5 / 2)) = -1 := by
    rw [show 3 * (2 * Real.pi / 5) * (5 / 2) = Real.pi + 2 * Real.pi by ring,
      Real.cos_add_two_pi, Real.cos_pi]
  have hs3 : Real.sin (3 * (2 * Real.pi / 5) * (5 / 2)) = 0 := by
    rw [show 3 * (2 * Real.pi / 5) * (5 / 2) = Real.pi + 2 * Real.pi by ring,
      Real.sin_add_two_pi, Real.sin_pi]
  have hc4 : Real.cos (4 * (2 * Real.pi / 5) * (5 / 2)) = 1 := by
    rw [show 4 * (2 * Real.pi / 5) * (5 / 2) = 2 * Real.pi + 2 * Real.pi by ring,
      Real.cos_add_two_pi, Real.cos_two_pi]
  have hs4 : Real.sin (4 * (2 * Real.pi / 5) * (5 / 2)) = 0 := by
    rw [show 4 * (2 * Real.pi / 5) * (5 / 2) = 2 * Real.pi + 2 * Real.pi by ring,
      Real.sin_add_two_pi, Real.sin_two_pi]
  have hc5 : Real.cos (5 * (2 * Real.pi / 5) * (5 / 2)) = -1 := by
    rw [show 5 * (2 * Real.pi / 5) * (5 / 2) = Real.pi + 2 * Real.pi + 2 * Real.pi by
      ring, Real.cos_add_two_pi, Real.cos_add_two_pi, Real.cos_pi]
  have hs5 : Real.sin (5 * (2 * Real.pi / 5) * (5 / 2)) = 0 := by
    rw [show 5 * (2 * Real.pi / 5) * (5 / 2) = Real.pi + 2 * Real.pi + 2 * Real.pi by
      ring, Real.sin_add_two_pi, Real.sin_add_two_pi, Real.sin_pi]
  simp only [List.map_cons, List.map_nil, Function.comp_apply, zero_mul,
    Real.cos_zero, Real.sin_zero, hc1, hs1, hc2, hs2, hc3, hs3, hc4, hs4, hc5, hs5]
  norm_num
  have h4 : Real.sqrt 4 = 2 := by
    rw [show (4 : ℝ) = 2 ^ 2 by norm_num]
    exact Real.sqrt_sq (by norm_num)
  have h9 : Real.sqrt 9 = 3 := by
    rw [show (9 : ℝ) = 3 ^ 2 by norm_num]
    exact Real.sqrt_sq (by norm_num)
  rw [h4, h9, np_max]
  norm_num [List.foldl, max_def]

lemma ecf_err_discard_sample5_val :
    ecf_err_discard [0, 0, 0, 0, (5 : ℝ) / 2] 5 1 = (2 * Real.pi / 5, 0) := by
  rw [ecf_err_discard, if_neg (by rw [np_std_sample5]; norm_num)]
  dsimp only
  rw [np_std_sample5]
  rw [show 2 * ((1 : ℕ) : ℝ) * Real.pi / 1 / ((5 : ℕ) : ℝ) = 2 * Real.pi / 5 by
    push_cast; ring]
  rw [show ([0, 0, 0, 0, (5 : ℝ) / 2] : List ℝ).length / 2 = 2 by norm_num]
  rw [show ([0, 0, 0, 0, (5 : ℝ) / 2] : List ℝ).take 2 = [0, 0] by simp]
  rw [show ([0, 0, 0, 0, (5 : ℝ) / 2] : List ℝ).drop 2 = [0, 0, (5 : ℝ) / 2] by simp]
  rw [show ([0, 0, (5 : ℝ) / 2] : List ℝ).take 2 = [0, 0] by simp]
  rw [eval_pts5, ecf_zeros2]
  rw [ecf_compare, List.zip_map', List.map_map]
  rw [Prod.mk.injEq]
  refine ⟨rfl, ?_⟩
  simp only [List.map_cons, List.map_nil, Function.comp_apply]
  norm_num [np_max, List.foldl, max_def]

/-- C2 counterexample: on the odd-length sample [0, 0, 0, 0, 5/2] (standard
deviation exactly 1) with num_steps 5 and num_var_pers 1, _ecf_err returns
error 2/3 — the remainder element 5/2 participates, as part of the second
half — whereas the split the claim describes (both halves of size
⌊5/2⌋ = 2, remainder discarded from both) would yield error 0, the two
discarded-split halves being identical.  The claim's description of the
split is therefore false on the code. -/
theorem ecf_err_split_keeps_remainder :
    _ecf_err [0, 0, 0, 0, (5 : ℝ) / 2] 5 1 = (2 * Real.pi / 5, 2 / 3) ∧
    ecf_err_discard [0, 0, 0, 0, (5 : ℝ) / 2] 5 1 = (2 * Real.pi / 5, 0) ∧
    _ecf_err [0, 0, 0, 0, (5 : ℝ) / 2] 5 1 ≠
      ecf_err_discard [0, 0, 0, 0, (5 : ℝ) / 2] 5 1 := by
  refine ⟨ecf_err_sample5_val, ecf_err_discard_sample5_val, ?_⟩
  rw [ecf_err_sample5_val, ecf_err_discard_sample5_val]
  intro h
  have h2 := congrArg Prod.snd h
  norm_num at h2

/-- C2 amended: for a sample of nonzero spread, _ecf_err splits at
n = ⌊len/2⌋ into two contiguous pieces that together exhaust the whole
sample, results[:n] of length ⌊len/2⌋ and results[n:] of length
len - ⌊len/2⌋; when the length is odd the remainder element joins the
SECOND half (length ⌊len/2⌋ + 1) rather than being discarded, and the
result is the derived increment paired with ecf_compare of the two pieces'
ECFs over the increment's grid. -/
theorem ecf_err_split_structure (results : List ℝ) (num_steps num_var_pers : ℕ)
    (h : np_std results ≠ 0) :
    ∃ h1 h2 : List ℝ,
      h1 ++ h2 = results ∧
      h1.length = results.length / 2 ∧
      h2.length = results.length - results.length / 2 ∧
      (results.length % 2 = 1 → h2.length = results.length / 2 + 1) ∧
      _ecf_err results num_steps num_var_pers =
        (2 * (num_var_pers : ℝ) * Real.pi / np_std results / (num_steps : ℝ),
          ecf_compare
            (ecf h1 (_ecf_eval_pts num_steps
              (2 * (num_var_pers : ℝ) * Real.pi / np_std results / (num_steps : ℝ))))
            (ecf h2 (_ecf_eval_pts num_steps
              (2 * (num_var_pers : ℝ) * Real.pi / np_std results / (num_steps : ℝ))))) := by
  refine ⟨results.take (results.length / 2), results.drop (results.length / 2),
    List.take_append_drop _ _, ?_, ?_, ?_, ?_⟩
  · rw [List.length_take]
    omega
  · rw [List.length_drop]
  · intro hodd
    rw [List.length_drop]
    omega
  · rw [_ecf_err, if_neg h]

/-- C2 amended witness: the sample [0, 0, 0, 0, 5/2] of odd length 5 has
nonzero spread, and the conclusion holds there with halves of length 2 and
3 (the remainder element in the second half). -/
theorem ecf_err_split_structure_check :
    np_std [0, 0, 0, 0, (5 : ℝ) / 2] ≠ 0 ∧
    ∃ h1 h2 : List ℝ,
      h1 ++ h2 = [0, 0, 0, 0, (5 : ℝ) / 2] ∧
      h1.length = 2 ∧
      h2.length = 3 ∧
      _ecf_err [0, 0, 0, 0, (5 : ℝ) / 2] 5 1 =
        (2 * ((1 : ℕ) : ℝ) * Real.pi / np_std [0, 0, 0, 0, (5 : ℝ) / 2] / ((5 : ℕ) : ℝ),
          ecf_compare
            (ecf h1 (_ecf_eval_pts 5
              (2 * ((1 : ℕ) : ℝ) * Real.pi / np_std [0, 0, 0, 0, (5 : ℝ) / 2] / ((5 : ℕ) : ℝ))))
            (ecf h2 (_ecf_eval_pts 5
              (2 * ((1 : ℕ) : ℝ) * Real.pi / np_std [0, 0, 0, 0, (5 : ℝ) / 2] / ((5 : ℕ) : ℝ))))) := by
  have hstd : np_std [0, 0, 0, 0, (5 : ℝ) / 2] ≠ 0 := by
    rw [np_std_sample5]; norm_num
  obtain ⟨h1, h2, ha, hb, hc, _, he⟩ := ecf_err_split_structure
    [0, 0, 0, 0, (5 : ℝ) / 2] 5 1 hstd
  exact ⟨hstd, h1, h2, ha, by simpa using hb, by simpa using hc, he⟩

lemma np_std_0011 : np_std [0, 0, 1, (1 : ℝ)] = 1 / 2 := by
  have hvar : np_var [0, 0, 1, (1 : ℝ)] = 1 / 4 := by
    norm_num [np_var, np_average]
  rw [np_std, hvar, show (1 : ℝ) / 4 = (1 / 2) ^ 2 by norm_num]
  exact Real.sqrt_sq (by norm_num)

lemma np_std_0110 : np_std [0, 1, 1, (0 : ℝ)] = 1 / 2 := by
  have hvar : np_var [0, 1, 1, (0 : ℝ)] = 1 / 4 := by
    norm_num [np_var, np_average]
  rw [np_std, hvar, show (1 : ℝ) / 4 = (1 / 2) ^ 2 by norm_num]
  exact Real.sqrt_sq (by norm_num)

lemma eval_pts4 (incr : ℝ) :
    _ecf_eval_pts 4 incr = [0, incr, 2 * incr, 3 * incr, 4 * incr] := by
  rw [_ecf_eval_pts, show List.range (4 + 1) = [0, 1, 2, 3, 4] from rfl]
  norm_num

lemma ecf_ones2 (pts : List ℝ) :
    ecf [(1 : ℝ), 1] pts = pts.map fun t => (Real.cos t, Real.sin t) := by
  rw [ecf]
  refine List.map_congr_left ?_
  intro t _
  norm_num [np_average]

lemma ecf_01 (pts : List ℝ) :
    ecf [(0 : ℝ), 1] pts =
      pts.map fun t => ((1 + Real.cos t) / 2, Real.sin t / 2) := by
  rw [ecf]
  refine List.map_congr_left ?_
  intro t _
  rw [Prod.mk.injEq]
  refine ⟨?_, ?_⟩ <;> · rw [np_average]; norm_num

lemma ecf_10 (pts : List ℝ) :
    ecf [(1 : ℝ), 0] pts =
      pts.map fun t => ((1 + Real.cos t) / 2, Real.sin t / 2) := by
  rw [ecf]
  refine List.map_congr_left ?_
  intro t _
  rw [Prod.mk.injEq]
  refine ⟨?_, ?_⟩ <;> · rw [np_average]; norm_num; try ring

lemma ecf_err_0011 : _ecf_err [0, 0, 1, (1 : ℝ)] 4 1 = (Real.pi, 2) := by
  rw [_ecf_err, if_neg (by rw [np_std_0011]; norm_num)]
  dsimp only
  rw [np_std_0011]
  rw [show 2 * ((1 : ℕ) : ℝ) * Real.pi / (1 / 2) / ((4 : ℕ) : ℝ) = Real.pi by
    push_cast; ring]
  rw [show ([0, 0, 1, (1 : ℝ)] : List ℝ).length / 2 = 2 by norm_num]
  rw [show ([0, 0, 1, (1 : ℝ)] : List ℝ).take 2 = [0, 0] by simp]
  rw [show ([0, 0, 1, (1 : ℝ)] : List ℝ).drop 2 = [1, 1] by simp]
  rw [eval_pts4, ecf_zeros2, ecf_ones2]
  rw [ecf_compare, List.zip_map', List.map_map]
  rw [Prod.mk.injEq]
  refine ⟨rfl, ?_⟩
  have hc3 : Real.cos (3 * Real.pi) = -1 := by
    rw [show 3 * Real.pi = Real.pi + 2 * Real.pi by ring,
      Real.cos_add_two_pi, Real.cos_pi]
  have hs3 : Real.sin (3 * Real.pi) = 0 := by
    rw [show 3 * Real.pi = Real.pi + 2 * Real.pi by ring,
      Real.sin_add_two_pi, Real.sin_pi]
  have hc4 : Real.cos (4 * Real.pi) = 1 := by
    rw [show 4 * Real.pi = 2 * Real.pi + 2 * Real.pi by ring,
      Real.cos_add_two_pi, Real.cos_two_pi]
  have hs4 : Real.sin (4 * Real.pi) = 0 := by
    rw [show 4 * Real.pi = 2 * Real.pi + 2 * Real.pi by ring,
      Real.sin_add_two_pi, Real.sin_two_pi]
  simp only [List.map_cons, List.map_nil, Function.comp_apply, Real.cos_zero,
    Real.sin_zero, Real.cos_pi, Real.sin_pi, Real.cos_two_pi, Real.sin_two_pi,
    hc3, hs3, hc4, hs4]
  norm_num
  have h4 : Real.sqrt 4 = 2 := by
    rw [show (4 : ℝ) = 2 ^ 2 by norm_num]
    exact Real.sqrt_sq (by norm_num)
  rw [h4, np_max]
  norm_num [List.foldl, max_def]

lemma ecf_err_0110 : _ecf_err [0, 1, 1, (0 : ℝ)] 4 1 = (Real.pi, 0) := by
  rw [_ecf_err, if_neg (by rw [np_std_0110]; norm_num)]
  dsimp only
  rw [np_std_0110]
  rw [show 2 * ((1 : ℕ) : ℝ) * Real.pi / (1 / 2) / ((4 : ℕ) : ℝ) = Real.pi by
    push_cast; ring]
  rw [show ([0, 1, 1, (0 : ℝ)] : List ℝ).length / 2 = 2 by norm_num]
  rw [show ([0, 1, 1, (0 : ℝ)] : List ℝ).take 2 = [0, 1] by simp]
  rw [show ([0, 1, 1, (0 : ℝ)] : List ℝ).drop 2 = [1, 0] by simp]
  rw [eval_pts4, ecf_01, ecf_10]
  rw [ecf_compare, List.zip_map', List.map_map]
  rw [Prod.mk.injEq]
  refine ⟨rfl, ?_⟩
  simp only [List.map_cons, List.map_nil, Function.comp_apply, sub_self]
  norm_num [np_max, List.foldl, max_def]

lemma impl_defs_agree {m t : ℕ} :
    @_test_sampling_impl_no_shared m t = @_test_sampling_impl_shared m t := rfl

lemma finRange1 : List.finRange 1 = [0] := rfl

lemma ofFn_fin4 {α : Type} (g : Fin 4 → α) : List.ofFn g = [g 0, g 1, g 2, g 3] := rfl

lemma colA :
    colList (applyIdx trajC1 (id ∘ shufflesC1 0)) (0 : Fin 1) = [0, 0, 1, 1] := by
  rw [colList, ofFn_fin4]
  norm_num [applyIdx, trajC1, cycC1, shufflesC1, Function.comp,
    show ((3 : Fin 4)).val = 3 from rfl, show ((2 : Fin 4)).val = 2 from rfl,
    show ((1 : Fin 4)).val = 1 from rfl, show ((0 : Fin 4)).val = 0 from rfl]

lemma colB :
    colList (applyIdx (applyIdx trajC1 (id ∘ shufflesC1 0))
      ((id ∘ shufflesC1 0) ∘ shufflesC1 1)) (0 : Fin 1) = [0, 1, 1, 0] := by
  rw [colList, ofFn_fin4]
  norm_num [applyIdx, trajC1, cycC1, shufflesC1, Function.comp,
    show ((3 : Fin 4)).val = 3 from rfl, show ((2 : Fin 4)).val = 2 from rfl,
    show ((1 : Fin 4)).val = 1 from rfl, show ((0 : Fin 4)).val = 0 from rfl]

lemma colC :
    colList (applyIdx trajC1 ((id ∘ shufflesC1 0) ∘ shufflesC1 1)) (0 : Fin 1) =
      [0, 0, 1, 1] := by
  rw [colList, ofFn_fin4]
  norm_num [applyIdx, trajC1, cycC1, shufflesC1, Function.comp,
    show ((3 : Fin 4)).val = 3 from rfl, show ((2 : Fin 4)).val = 2 from rfl,
    show ((1 : Fin 4)).val = 1 from rfl, show ((0 : Fin 4)).val = 0 from rfl]

lemma implA :
    _test_sampling_impl_shared (applyIdx trajC1 (id ∘ shufflesC1 0)) 4 1 = 2 := by
  rw [_test_sampling_impl_shared, finRange1]
  simp only [List.foldl]
  rw [colA, ecf_err_0011]
  norm_num [max_def]

lemma implB :
    _test_sampling_impl_shared (applyIdx (applyIdx trajC1 (id ∘ shufflesC1 0))
      ((id ∘ shufflesC1 0) ∘ shufflesC1 1)) 4 1 = 0 := by
  rw [_test_sampling_impl_shared, finRange1]
  simp only [List.foldl]
  rw [colB, ecf_err_0110]
  norm_num [max_def]

lemma implC :
    _test_sampling_impl_shared (applyIdx trajC1 ((id ∘ shufflesC1 0) ∘ shufflesC1 1))
      4 1 = 2 := by
  rw [_test_sampling_impl_shared, finRange1]
  simp only [List.foldl]
  rw [colC, ecf_err_0011]
  norm_num [max_def]

/-- C1 counterexample: one variable with realization values [1, 0, 0, 1] at a
single time point, both workers drawing the identical shuffle sequence
(cycle, then identity) for 2 replicates with num_steps 4, num_var_pers 1.
The first replicate agrees (both permute the data to column [0,0,1,1], error
2), but on the second replicate the shared worker reindexes its ALREADY
permuted copy — data column [0,1,1,0], whose two halves are equal as
multisets, error 0 — while the copy worker permutes the original data —
column [0,0,1,1] again, error 2.  The error samples [2, 0] and [2, 2] are
not bit-identical. -/
theorem transports_diverge_second_replicate :
    _test_sampling_shared [trajC1] shufflesC1 2 4 1 = [2, 0] ∧
    _test_sampling_no_shared [trajC1] shufflesC1 2 4 1 = [2, 2] ∧
    _test_sampling_shared [trajC1] shufflesC1 2 4 1 ≠
      _test_sampling_no_shared [trajC1] shufflesC1 2 4 1 := by
  have hshared : _test_sampling_shared [trajC1] shufflesC1 2 4 1 = [2, 0] := by
    rw [_test_sampling_shared]
    simp only [sharedReplicates, List.map_cons, List.map_nil, List.foldl, zero_add]
    rw [implA, implB]
    norm_num [max_def]
  have hnoshared : _test_sampling_no_shared [trajC1] shufflesC1 2 4 1 = [2, 2] := by
    rw [_test_sampling_no_shared]
    simp only [noSharedReplicates, List.map_cons, List.map_nil, py_max, List.foldl,
      zero_add, impl_defs_agree]
    rw [implA, implC]
  refine ⟨hshared, hnoshared, ?_⟩
  rw [hshared, hnoshared]
  intro h
  norm_num at h

lemma foldl_max_f_le {α : Type} (f : α → ℝ) :
    ∀ (l : List α) (a : ℝ), a ≤ l.foldl (fun acc x => max acc (f x)) a := by
  intro l
  induction l with
  | nil => intro a; exact le_refl a
  | cons x xs ih =>
    intro a
    exact le_trans (le_max_left a (f x)) (ih (max a (f x)))

lemma impl_shared_nonneg {m t : ℕ} (res : Fin m → Fin t → ℝ)
    (num_steps num_var_pers : ℕ) :
    0 ≤ _test_sampling_impl_shared res num_steps num_var_pers := by
  rw [_test_sampling_impl_shared]
  exact foldl_max_f_le _ _ 0

/-- C1 amended: with identical shuffle draws, the FIRST replicate of the two
workers is bit-identical (both consume the same first rearrangement and
apply it to the same data), so single-replicate runs coincide; from the second
replicate on the workers need not agree (see the counterexample), because
the shared worker permutes its already-permuted copy while the copy worker
permutes the original data, and the transports coincide only in
distribution. -/
theorem first_replicate_agrees {m t : ℕ} (results : List (Fin m → Fin t → ℝ))
    (shuffles : ℕ → Fin m → Fin m) (num_results num_steps num_var_pers : ℕ)
    (hres : results ≠ []) (hn : 1 ≤ num_results) :
    (_test_sampling_shared results shuffles num_results num_steps num_var_pers).head? =
      (_test_sampling_no_shared results shuffles num_results num_steps
        num_var_pers).head? := by
  obtain ⟨n, rfl⟩ : ∃ n, num_results = n + 1 := ⟨num_results - 1, by omega⟩
  obtain ⟨r, rs, rfl⟩ : ∃ r rs, results = r :: rs := by
    cases results with
    | nil => exact absurd rfl hres
    | cons r rs => exact ⟨r, rs, rfl⟩
  rw [_test_sampling_shared, _test_sampling_no_shared, sharedReplicates,
    noSharedReplicates]
  simp only [List.head?_cons]
  congr 1
  simp only [List.map_cons, py_max, List.foldl, impl_defs_agree]
  rw [max_eq_right (impl_shared_nonneg _ _ _)]
  rw [List.foldl_map, List.foldl_map]

/-- C1 amended witness: a single-replicate run of both workers on a
one-variable, one-realization trajectory with identity shuffles produces the
same (single-element) error sample head. -/
theorem first_replicate_agrees_check :
    ([fun _ _ => (0 : ℝ)] : List (Fin 1 → Fin 1 → ℝ)) ≠ [] ∧ 1 ≤ 1 ∧
    (_test_sampling_shared ([fun _ _ => (0 : ℝ)] : List (Fin 1 → Fin 1 → ℝ))
        (fun _ => id) 1 4 1).head? =
      (_test_sampling_no_shared ([fun _ _ => (0 : ℝ)] : List (Fin 1 → Fin 1 → ℝ))
        (fun _ => id) 1 4 1).head? :=
  ⟨by simp, le_refl 1,
    first_replicate_agrees _ (fun _ => id) 1 4 1 (by simp) (le_refl 1)⟩
